import Mathlib

/-
Verification of the links-client ILinks flat API and MenuStorageService
against their natural-language specification.

The repository is a thin client over an external `clink` store.  The
implementation files of the JavaScript package are not part of the
checked-in sources here (only their tests, examples and READMEs are), so
the operations below are modelled from the specification document, with
the external store represented as an explicit in-memory state.
-/

set_option autoImplicit false

/-- A link record `{id, source, target}`.  Modelled from the spec:
identity is the `id` assigned by the store on creation; `source` and
`target` are opaque integer references (`0` conventionally means "any"
in restrictions). -/
structure Link where
  id : Nat
  source : Nat
  target : Nat
deriving Repr, DecidableEq

/-- Modelled from the spec: the external `clink` store, which this
library delegates all persistence to.  `links` is the persisted link
list in the external tool's reported order, `nextId` the next fresh id
(ids start at 1), and `extCalls` counts external process invocations
(each operation spawns the external binary once it passes validation). -/
structure Store where
  links : List Link
  nextId : Nat
  extCalls : Nat
deriving Repr, DecidableEq

/-- The empty external database: no links, ids start at 1. -/
def emptyStore : Store := ⟨[], 1, 0⟩

/-- Modelled from the spec: the `Continue` / `Break` sentinel constants
exposed by ILinks and returned by `each` callbacks. -/
inductive Signal where
  | Continue : Signal
  | Break : Signal
deriving Repr, DecidableEq

/-- Modelled from the spec: the error kinds surfaced by the facades
(`ValidationError` for malformed caller input, `NotFoundError` when an
update/delete restriction matches zero links). -/
inductive LinksError where
  | validationError (msg : String)
  | notFoundError (msg : String)
deriving Repr, DecidableEq

/-- A single restriction position: `0` (`Any`) matches anything,
otherwise the position must equal the link's value. -/
def wildMatch (p v : Nat) : Bool :=
  p == 0 || p == v

/-- Modelled from the spec: restriction matching.  A restriction is an
ordered tuple of up to 3 integers; a pair is interpreted as
`[source, target]` and a triple as `[id, source, target]`, with `0` as
wildcard.  The empty tuple is unrestricted; other shapes are not used
by the API. -/
def matchesRestriction (r : List Nat) (l : Link) : Bool :=
  match r with
  | [] => true
  | [s, t] => wildMatch s l.source && wildMatch t l.target
  | [i, s, t] => wildMatch i l.id && wildMatch s l.source && wildMatch t l.target
  | _ => false

/-- The links the external tool reports for a restriction, in store
order; `none` is an unrestricted scan. -/
def matchingLinks (st : Store) (r : Option (List Nat)) : List Link :=
  match r with
  | none => st.links
  | some rr => st.links.filter (matchesRestriction rr)

/-- Modelled from the spec: the change record `{before, after}` passed
to optional handlers. -/
structure ChangeRecord where
  before : Option Link
  after : Option Link
deriving Repr, DecidableEq

/-- Modelled from the spec: `ILinks.create(substitution, handler?)`.
The substitution must be `[source, target]` (length ≥ 2) or the call
fails with a validation error before any external call; otherwise the
external tool persists a fresh link with a new id and the change record
`{before: null, after: newLink}` is delivered.  The returned pair is
the store after the call and either the error or `(id, change)`. -/
def create (st : Store) (substitution : List Nat) :
    Store × Except LinksError (Nat × ChangeRecord) :=
  if substitution.length < 2 then
    (st, Except.error (LinksError.validationError
      "Substitution must contain at least [source, target]"))
  else
    let newLink : Link := ⟨st.nextId, substitution.getD 0 0, substitution.getD 1 0⟩
    (⟨st.links ++ [newLink], st.nextId + 1, st.extCalls + 1⟩,
     Except.ok (newLink.id, ⟨none, some newLink⟩))

/-- Modelled from the spec: `ILinks.count(restriction?)`.  Unrestricted
when the restriction is omitted; returns the number of matching links
(0 rather than an error when nothing matches). -/
def count (st : Store) (r : Option (List Nat)) : Nat :=
  (matchingLinks st r).length

/-- One streamed `each` pass over the parsed records: the callback
carries its own state `s` (JavaScript callbacks may close over mutable
state); iteration stops consuming records as soon as `Break` is seen.
Returns the final signal and the list of visited links in order. -/
def eachGo {σ : Type} (cb : σ → Link → σ × Signal) : σ → List Link → Signal × List Link
  | _, [] => (Signal.Continue, [])
  | s, l :: rest =>
    match cb s l with
    | (s2, Signal.Continue) =>
      let res := eachGo cb s2 rest
      (res.1, l :: res.2)
    | (_, Signal.Break) => (Signal.Break, [l])

/-- Modelled from the spec: `ILinks.each(restriction, callback)`.
Iterates the matching links in the external tool's reported order,
invoking the callback per link; returns `Break` if the callback broke
early, `Continue` after exhausting matches.  Also returns the visited
links so visitation itself can be specified. -/
def each {σ : Type} (st : Store) (r : Option (List Nat))
    (cb : σ → Link → σ × Signal) (s0 : σ) : Signal × List Link :=
  eachGo cb s0 (matchingLinks st r)

/-- Modelled from the spec: `ILinks.update(restriction, substitution,
handler?)`.  The restriction is required; with zero matches the call
fails with a not-found error (the search query was still one external
call); otherwise the first matched link keeps its id and its source and
target are replaced by the substitution, and the change record carries
the old and new link. -/
def update (st : Store) (restriction : Option (List Nat)) (substitution : List Nat) :
    Store × Except LinksError (Nat × ChangeRecord) :=
  match restriction with
  | none =>
    (st, Except.error (LinksError.validationError "Restriction required for update"))
  | some r =>
    match st.links.filter (matchesRestriction r) with
    | [] =>
      (⟨st.links, st.nextId, st.extCalls + 1⟩,
       Except.error (LinksError.notFoundError "No links found matching restriction"))
    | l :: _ =>
      let newLink : Link := ⟨l.id, substitution.getD 0 0, substitution.getD 1 0⟩
      (⟨st.links.map (fun x => if x.id == l.id then newLink else x),
        st.nextId, st.extCalls + 1⟩,
       Except.ok (l.id, ⟨some l, some newLink⟩))

/-- Modelled from the spec: `ILinks.delete(restriction, handler?)`.
Same restriction-required and no-match failure modes as update; on
success the matching links are removed (so a subsequent count with the
same restriction is 0), the first matched link's id is returned and the
change record is `{before, after: null}`. -/
def delete (st : Store) (restriction : Option (List Nat)) :
    Store × Except LinksError (Nat × ChangeRecord) :=
  match restriction with
  | none =>
    (st, Except.error (LinksError.validationError "Restriction required for delete"))
  | some r =>
    match st.links.filter (matchesRestriction r) with
    | [] =>
      (⟨st.links, st.nextId, st.extCalls + 1⟩,
       Except.error (LinksError.notFoundError "No links found matching restriction"))
    | l :: _ =>
      (⟨st.links.filter (fun x => !matchesRestriction r x),
        st.nextId, st.extCalls + 1⟩,
       Except.ok (l.id, ⟨some l, none⟩))

/-- Store well-formedness: the external store assigns ids from 1
upwards, every persisted id is below the next fresh id and ids are
pairwise distinct. -/
def Store.WF (st : Store) : Prop :=
  0 < st.nextId ∧ (∀ l ∈ st.links, 0 < l.id ∧ l.id < st.nextId) ∧
    (st.links.map Link.id).Nodup

instance (st : Store) : Decidable st.WF := by
  unfold Store.WF
  infer_instance

/-- A callback that returns `Break` on the `n`-th visit (counting
visits in its state), `Continue` before that: the test suite's
"break after N iterations" callback. -/
def breakAfter (n : Nat) : Nat → Link → Nat × Signal :=
  fun k _ => (k + 1, if n ≤ k + 1 then Signal.Break else Signal.Continue)

/-- A small concrete store used to exercise the theorems. -/
def stDemo : Store := ⟨[⟨1, 1, 2⟩, ⟨2, 3, 4⟩, ⟨3, 5, 6⟩], 4, 3⟩

mutual
/-- Modelled from the spec: a menu item `{label, icon, to, items}` —
label, icon, navigation target, then the forest of child items
(parent-child order is significant). -/
inductive MenuItem : Type where
  | mk : String → String → String → MenuForest → MenuItem
/-- An ordered forest of menu items. -/
inductive MenuForest : Type where
  | nil : MenuForest
  | cons : MenuItem → MenuForest → MenuForest
end

/-- One persisted menu-node record: `MenuStorageService` encodes each
menu node as a link under its parent, with the label, icon and `to`
navigation target (here `tgt`) stored as fields of that record. -/
structure MenuNode where
  id : Nat
  parent : Nat
  label : String
  icon : String
  tgt : String
deriving Repr, DecidableEq

mutual
/-- Modelled from the spec: recursively persist a menu item (and its
child forest) under parent `p`: the node takes the fresh id `fresh`,
its children are stored under that id, and the next fresh id is
returned.  Records are produced in depth-first creation order. -/
def encodeItem : MenuItem → Nat → Nat → List MenuNode × Nat
  | MenuItem.mk lb ic tg kids, p, fresh =>
    let ek := encodeForest kids fresh (fresh + 1)
    (⟨fresh, p, lb, ic, tg⟩ :: ek.1, ek.2)
/-- Persist every item of a forest in order under parent `p`. -/
def encodeForest : MenuForest → Nat → Nat → List MenuNode × Nat
  | MenuForest.nil, _, fresh => ([], fresh)
  | MenuForest.cons it F, p, fresh =>
    let ei := encodeItem it p fresh
    let ef := encodeForest F p ei.2
    (ei.1 ++ ef.1, ef.2)
end

/-- The menu database: persisted node records in creation order, plus
the next fresh node id (ids start at 1). -/
structure MenuDB where
  nodes : List MenuNode
  nextId : Nat
deriving Repr, DecidableEq

/-- A fresh menu database. -/
def emptyMenuDB : MenuDB := ⟨[], 1⟩

/-- Modelled from the spec: `storeMenuStructure(menuTree, parentId)`
recursively persists each menu node as a link under `parentId` and
returns the ids of the created top-level nodes. -/
def storeMenuStructure (db : MenuDB) (F : MenuForest) (p : Nat) : MenuDB × List Nat :=
  let e := encodeForest F p db.nextId
  (⟨db.nodes ++ e.1, e.2⟩, (e.1.filter (fun nd => nd.parent == p)).map MenuNode.id)

/-- Build a menu forest from a list of items, keeping order. -/
def forestOfList : List MenuItem → MenuForest
  | [] => MenuForest.nil
  | it :: l => MenuForest.cons it (forestOfList l)

/-- Flatten a menu forest to the list of its top-level items. -/
def forestToList : MenuForest → List MenuItem
  | MenuForest.nil => []
  | MenuForest.cons it F => it :: forestToList F

/-- Walk the stored records: the children of `p`, in stored order, each
reconstructed with its own children one fuel level down. -/
def childrenMenu (nodes : List MenuNode) : Nat → Nat → MenuForest
  | 0, _ => MenuForest.nil
  | fuel + 1, p =>
    forestOfList ((nodes.filter (fun nd => nd.parent == p)).map
      (fun nd => MenuItem.mk nd.label nd.icon nd.tgt (childrenMenu nodes fuel nd.id)))

/-- Reconstruct the single menu item a stored record stands for,
decoding its children with the given fuel. -/
def decodeNode (nodes : List MenuNode) (fu : Nat) (nd : MenuNode) : MenuItem :=
  MenuItem.mk nd.label nd.icon nd.tgt (childrenMenu nodes fu nd.id)

/-- Modelled from the spec: `getMenuStructure(parentId)` reverses the
encoding by walking links from `parentId`, reconstructing nested items
in original order.  The nesting depth is bounded by the record count,
so that much fuel always suffices. -/
def getMenuStructure (db : MenuDB) (p : Nat) : MenuForest :=
  childrenMenu db.nodes (db.nodes.length + 1) p

mutual
/-- Nesting depth of a menu item (at least 1). -/
def depthItem : MenuItem → Nat
  | MenuItem.mk _ _ _ kids => depthForest kids + 1
/-- Nesting depth of a menu forest. -/
def depthForest : MenuForest → Nat
  | MenuForest.nil => 0
  | MenuForest.cons it F => max (depthItem it) (depthForest F)
end

/-- Claim C6: update and delete with a null restriction fail with their
respective "Restriction required" validation messages, without touching
the store (no external call is made). -/
theorem update_delete_null_restriction (st : Store) (sub : List Nat) :
    update st none sub =
      (st, Except.error (LinksError.validationError "Restriction required for update")) ∧
    delete st none =
      (st, Except.error (LinksError.validationError "Restriction required for delete")) :=
  ⟨rfl, rfl⟩

/-- Claim C3: create with a substitution of length < 2 fails with the
validation message "Substitution must contain at least [source,
target]" and returns the store completely unchanged — in particular no
external process call was performed (the call counter is untouched). -/
theorem create_invalid_substitution (st : Store) (sub : List Nat)
    (h : sub.length < 2) :
    create st sub =
      (st, Except.error (LinksError.validationError
        "Substitution must contain at least [source, target]")) := by
  simp [create, h]

/-- Witness for C3: `create [1]` on the empty store fails with the
validation error and leaves the store untouched. -/
theorem create_invalid_substitution_witness :
    ([1] : List Nat).length < 2 ∧
    create emptyStore [1] =
      (emptyStore, Except.error (LinksError.validationError
        "Substitution must contain at least [source, target]")) :=
  ⟨by decide, create_invalid_substitution emptyStore [1] (by decide)⟩

/-- Claim C8: count returns 0 (rather than failing) on a restriction
matching nothing, and an omitted restriction counts all links. -/
theorem count_empty_and_unrestricted (st : Store) (r : List Nat) :
    (matchingLinks st (some r) = [] → count st (some r) = 0) ∧
    count st none = st.links.length := by
  constructor
  · intro h
    simp [count, h]
  · rfl

/-- Witness for C8: the demo store has no link with source and target
999999, and counting that restriction yields 0. -/
theorem count_empty_witness :
    matchingLinks stDemo (some [999999, 999999]) = [] ∧
    count stDemo (some [999999, 999999]) = 0 :=
  ⟨by decide, (count_empty_and_unrestricted stDemo [999999, 999999]).1 (by decide)⟩

/-- Claim C10: a length-2 restriction is read as `[source, target]`:
it is equivalent to the length-3 restriction `[0, source, target]`
whose first position is the wildcard id, for matching, count and each
alike. -/
theorem pair_restriction_is_source_target (st : Store) (s t : Nat) :
    matchingLinks st (some [s, t]) = matchingLinks st (some [0, s, t]) ∧
    count st (some [s, t]) = count st (some [0, s, t]) ∧
    (∀ (σ : Type) (cb : σ → Link → σ × Signal) (s0 : σ),
      each st (some [s, t]) cb s0 = each st (some [0, s, t]) cb s0) := by
  have hm : matchingLinks st (some [s, t]) = matchingLinks st (some [0, s, t]) := by
    simp only [matchingLinks]
    apply List.filter_congr
    intro l _
    simp [matchesRestriction, wildMatch]
  refine ⟨hm, ?_, ?_⟩
  · simp [count, hm]
  · intro σ cb s0
    simp [each, hm]

/-- `each` only ever visits a prefix of the matching links: every
visited link is a match, visited at most once, in reported order. -/
theorem eachGo_visits_front {σ : Type} (cb : σ → Link → σ × Signal) :
    ∀ (ls : List Link) (s : σ), ∃ rest, (eachGo cb s ls).2 ++ rest = ls := by
  intro ls
  induction ls with
  | nil => intro s; exact ⟨[], rfl⟩
  | cons l tail ih =>
    intro s
    rcases hc : cb s l with ⟨s2, sig⟩
    cases sig with
    | Continue =>
      rcases ih s2 with ⟨rest, hrest⟩
      exact ⟨rest, by simp [eachGo, hc, hrest]⟩
    | Break => exact ⟨tail, by simp [eachGo, hc]⟩

/-- When `eachGo` ends with `Continue` it has visited the whole list. -/
theorem eachGo_continue_all {σ : Type} (cb : σ → Link → σ × Signal) :
    ∀ (ls : List Link) (s : σ),
      (eachGo cb s ls).1 = Signal.Continue → (eachGo cb s ls).2 = ls := by
  intro ls
  induction ls with
  | nil => intro s _; rfl
  | cons l tail ih =>
    intro s h
    rcases hc : cb s l with ⟨s2, sig⟩
    cases sig with
    | Continue =>
      have h2 : (eachGo cb s2 tail).1 = Signal.Continue := by
        simp [eachGo, hc] at h
        exact h
      simp [eachGo, hc, ih s2 h2]
    | Break =>
      simp [eachGo, hc] at h

/-- Running `eachGo` with the counting callback that breaks on the
`n`-th visit, starting from count `k < n`: it breaks after exactly
`n - k` visits when that many links are available, and otherwise runs
to the end with `Continue`. -/
theorem eachGo_breakAfter (n : Nat) :
    ∀ (ls : List Link) (k : Nat), k < n →
      eachGo (breakAfter n) k ls =
        if n - k ≤ ls.length then (Signal.Break, ls.take (n - k))
        else (Signal.Continue, ls) := by
  intro ls
  induction ls with
  | nil =>
    intro k hk
    rw [if_neg]
    · rfl
    · simp
      omega
  | cons l tail ih =>
    intro k hk
    by_cases h : n ≤ k + 1
    · have hnk : n - k = 1 := by omega
      have hcb : breakAfter n k l = (k + 1, Signal.Break) := by
        simp [breakAfter, h]
      rw [if_pos]
      · simp [eachGo, hcb, hnk]
      · simp [hnk]
    · have hcb : breakAfter n k l = (k + 1, Signal.Continue) := by
        simp [breakAfter, h]
      have hk1 : k + 1 < n := by omega
      have hrec := ih (k + 1) hk1
      by_cases hle : n - k ≤ tail.length + 1
      · have hle2 : n - (k + 1) ≤ tail.length := by omega
        rw [if_pos (by simpa using hle)]
        have htake : (l :: tail).take (n - k) = l :: tail.take (n - (k + 1)) := by
          have : n - k = (n - (k + 1)) + 1 := by omega
          simp [this]
        rw [htake]
        simp only [eachGo, hcb]
        rw [hrec, if_pos hle2]
      · have hgt2 : ¬ n - (k + 1) ≤ tail.length := by omega
        rw [if_neg (by simpa using hle)]
        simp only [eachGo, hcb]
        rw [hrec, if_neg hgt2]

/-- Claim C1: `each` visits matching links exactly once each, in the
reported order (the visited list is a prefix of the matches, and under
`Continue` it is all of them); with the callback that breaks on the
`n`-th visit, visitation halts at exactly `n` links with result `Break`
when at least `n` links match, and otherwise every match is visited and
the result is `Continue`. -/
theorem each_visits_matches (st : Store) (r : Option (List Nat)) :
    (∀ (σ : Type) (cb : σ → Link → σ × Signal) (s0 : σ),
      (∃ rest, (each st r cb s0).2 ++ rest = matchingLinks st r) ∧
      ((each st r cb s0).1 = Signal.Continue →
        (each st r cb s0).2 = matchingLinks st r)) ∧
    (∀ n : Nat, 0 < n → n ≤ (matchingLinks st r).length →
      each st r (breakAfter n) 0 = (Signal.Break, (matchingLinks st r).take n)) ∧
    (∀ n : Nat, 0 < n → (matchingLinks st r).length < n →
      each st r (breakAfter n) 0 = (Signal.Continue, matchingLinks st r)) := by
  refine ⟨?_, ?_, ?_⟩
  · intro σ cb s0
    exact ⟨eachGo_visits_front cb (matchingLinks st r) s0,
      eachGo_continue_all cb (matchingLinks st r) s0⟩
  · intro n hn hlen
    have h := eachGo_breakAfter n (matchingLinks st r) 0 hn
    rw [each, h, if_pos (by simpa using hlen)]
    simp
  · intro n hn hlen
    have h := eachGo_breakAfter n (matchingLinks st r) 0 hn
    rw [each, h, if_neg (by simpa using Nat.not_le_of_lt hlen)]

/-- Witness for C1: on the three-link demo store, breaking on the
second visit halts after exactly the first two links and returns
`Break`. -/
theorem each_visits_matches_witness :
    0 < 2 ∧ 2 ≤ (matchingLinks stDemo none).length ∧
    each stDemo none (breakAfter 2) 0 =
      (Signal.Break, (matchingLinks stDemo none).take 2) :=
  ⟨by decide, by decide,
    (each_visits_matches stDemo none).2.1 2 (by decide) (by decide)⟩


/-- A restriction `[i, 0, 0]` with a nonzero id matches exactly the
links with that id. -/
theorem matches_id_restriction (i : Nat) (hi : i ≠ 0) (x : Link) :
    matchesRestriction [i, 0, 0] x = (i == x.id) := by
  simp [matchesRestriction, wildMatch, hi]

/-- Replacing the link with id `i` in a duplicate-free list and then
filtering by that id yields exactly the replacement. -/
theorem filter_map_replace (i : Nat) (nl : Link) (hnl : nl.id = i) (hi : i ≠ 0) :
    ∀ xs : List Link, (xs.map Link.id).Nodup → i ∈ xs.map Link.id →
      (xs.map (fun x => if x.id == i then nl else x)).filter
        (matchesRestriction [i, 0, 0]) = [nl] := by
  intro xs
  induction xs with
  | nil => intro _ h; simp at h
  | cons x tail ih =>
    intro hnd hmem
    simp only [List.map_cons, List.nodup_cons] at hnd
    by_cases hx : x.id = i
    · have htail : ∀ y ∈ tail, y.id ≠ i := by
        intro y hy he
        exact hnd.1 (hx ▸ he ▸ List.mem_map_of_mem Link.id hy)
      have htail2 : (tail.map (fun x => if x.id == i then nl else x)).filter
          (matchesRestriction [i, 0, 0]) = [] := by
        rw [List.filter_eq_nil_iff]
        intro a ha
        rcases List.mem_map.mp ha with ⟨y, hy, hya⟩
        rw [if_neg (by simp [htail y hy])] at hya
        rw [← hya, matches_id_restriction i hi y]
        simp
        exact fun he => htail y hy he.symm
      have hmnl : matchesRestriction [i, 0, 0] nl = true := by
        rw [matches_id_restriction i hi nl, hnl]
        simp
      simp only [List.map_cons, if_pos (by simp [hx] : (x.id == i) = true)]
      rw [List.filter_cons_of_pos hmnl, htail2]
    · have hxm : matchesRestriction [i, 0, 0] x = false := by
        rw [matches_id_restriction i hi x]
        simp
        exact fun he => hx he.symm
      have hmem2 : i ∈ tail.map Link.id := by
        rcases List.mem_cons.mp hmem with h | h
        · exact absurd h.symm hx
        · exact h
      simp only [List.map_cons, if_neg (by simp [hx] : ¬((x.id == i) = true))]
      rw [List.filter_cons_of_neg (by simp [hxm]), ih hnd.2 hmem2]

/-- Claim C2: update on a restriction matching zero links fails with
the not-found error and leaves the persisted links (and id counter)
unchanged; on a restriction matching exactly one link it returns that
link's id (the id is stable) and a subsequent read by that id shows the
new source and target. -/
theorem update_semantics (st : Store) (r : List Nat) (sub : List Nat) :
    (matchingLinks st (some r) = [] →
      (update st (some r) sub).1.links = st.links ∧
      (update st (some r) sub).1.nextId = st.nextId ∧
      (update st (some r) sub).2 =
        Except.error (LinksError.notFoundError "No links found matching restriction")) ∧
    (∀ l : Link, Store.WF st → matchingLinks st (some r) = [l] →
      (update st (some r) sub).2 =
        Except.ok (l.id, ⟨some l, some ⟨l.id, sub.getD 0 0, sub.getD 1 0⟩⟩) ∧
      matchingLinks (update st (some r) sub).1 (some [l.id, 0, 0]) =
        [⟨l.id, sub.getD 0 0, sub.getD 1 0⟩]) := by
  constructor
  · intro h
    have h' : st.links.filter (matchesRestriction r) = [] := by
      simpa [matchingLinks] using h
    refine ⟨?_, ?_, ?_⟩ <;> simp [update, h']
  · intro l hwf hm
    have h' : st.links.filter (matchesRestriction r) = [l] := by
      simpa [matchingLinks] using hm
    have hmem : l ∈ st.links :=
      List.mem_of_mem_filter (h' ▸ List.mem_singleton_self l)
    have hid : l.id ≠ 0 := Nat.pos_iff_ne_zero.mp (hwf.2.1 l hmem).1
    have hmemid : l.id ∈ st.links.map Link.id := List.mem_map_of_mem Link.id hmem
    constructor
    · simp [update, h']
    · have key := filter_map_replace l.id ⟨l.id, sub.getD 0 0, sub.getD 1 0⟩ rfl hid
        st.links hwf.2.2 hmemid
      simpa [update, h', matchingLinks] using key

/-- Witness for C2: on the demo store, updating the unique link with id
2 to `[7, 8]` returns id 2 and a read by id 2 shows source 7, target 8. -/
theorem update_semantics_witness :
    Store.WF stDemo ∧ matchingLinks stDemo (some [2, 0, 0]) = [⟨2, 3, 4⟩] ∧
    ((update stDemo (some [2, 0, 0]) [7, 8]).2 =
        Except.ok (2, ⟨some ⟨2, 3, 4⟩, some ⟨2, 7, 8⟩⟩) ∧
      matchingLinks (update stDemo (some [2, 0, 0]) [7, 8]).1 (some [2, 0, 0]) =
        [⟨2, 7, 8⟩]) :=
  ⟨by decide, by decide,
    (update_semantics stDemo [2, 0, 0] [7, 8]).2 ⟨2, 3, 4⟩ (by decide) (by decide)⟩

/-- Claim C4: on a well-formed store, create with a valid substitution
returns the store's next id — strictly positive, distinct from every
persisted id, and strictly below every id a later create returns
(the id counter only grows) — the new store is well-formed, and a
subsequent count by the new id is 1. -/
theorem create_assigns_fresh_id (st : Store) (sub : List Nat)
    (hwf : Store.WF st) (hlen : 2 ≤ sub.length) :
    (create st sub).2 =
      Except.ok (st.nextId, ⟨none, some ⟨st.nextId, sub.getD 0 0, sub.getD 1 0⟩⟩) ∧
    0 < st.nextId ∧
    st.nextId ∉ st.links.map Link.id ∧
    (create st sub).1.nextId = st.nextId + 1 ∧
    Store.WF (create st sub).1 ∧
    count (create st sub).1 (some [st.nextId, 0, 0]) = 1 ∧
    (∀ (st2 : Store) (sub2 : List Nat) (i2 : Nat) (c2 : ChangeRecord),
      (create st sub).1.nextId ≤ st2.nextId →
      (create st2 sub2).2 = Except.ok (i2, c2) → st.nextId < i2) := by
  have hnl : ¬ sub.length < 2 := Nat.not_lt.mpr hlen
  have hfresh : st.nextId ∉ st.links.map Link.id := by
    intro hmem
    rcases List.mem_map.mp hmem with ⟨y, hy, hyid⟩
    exact absurd (hyid ▸ (hwf.2.1 y hy).2) (lt_irrefl _)
  have hid0 : st.nextId ≠ 0 := Nat.pos_iff_ne_zero.mp hwf.1
  have hst1 : (create st sub).1 =
      ⟨st.links ++ [⟨st.nextId, sub.getD 0 0, sub.getD 1 0⟩],
        st.nextId + 1, st.extCalls + 1⟩ := by
    simp [create, hnl]
  refine ⟨by simp [create, hnl], hwf.1, hfresh, by rw [hst1], ?_, ?_, ?_⟩
  · rw [hst1]
    refine ⟨Nat.succ_pos _, ?_, ?_⟩
    · intro l hl
      show 0 < l.id ∧ l.id < st.nextId + 1
      rcases List.mem_append.mp hl with h | h
      · exact ⟨(hwf.2.1 l h).1, Nat.lt_succ_of_lt (hwf.2.1 l h).2⟩
      · rcases List.mem_singleton.mp h with rfl
        exact ⟨hwf.1, Nat.lt_succ_self _⟩
    · show ((st.links ++ [(⟨st.nextId, sub.getD 0 0, sub.getD 1 0⟩ : Link)]).map
        Link.id).Nodup
      rw [List.map_append, List.nodup_append]
      refine ⟨hwf.2.2, by simp, ?_⟩
      intro a ha hb
      simp only [List.map_cons, List.map_nil, List.mem_singleton] at hb
      exact hfresh (hb ▸ ha)
  · rw [count, hst1]
    show ((st.links ++ [(⟨st.nextId, sub.getD 0 0, sub.getD 1 0⟩ : Link)]).filter
      (matchesRestriction [st.nextId, 0, 0])).length = 1
    have h1 : st.links.filter (matchesRestriction [st.nextId, 0, 0]) = [] := by
      rw [List.filter_eq_nil_iff]
      intro x hx
      rw [matches_id_restriction st.nextId hid0 x]
      simp
      intro he
      exact absurd (he ▸ (hwf.2.1 x hx).2) (lt_irrefl _)
    have h2 : matchesRestriction [st.nextId, 0, 0]
        (⟨st.nextId, sub.getD 0 0, sub.getD 1 0⟩ : Link) = true := by
      rw [matches_id_restriction st.nextId hid0]
      simp
    rw [List.filter_append, h1, List.filter_cons_of_pos h2]
    simp
  · intro st2 sub2 i2 c2 hle hok
    by_cases h2 : sub2.length < 2
    · simp [create, h2] at hok
    · simp only [create, h2, if_false, Except.ok.injEq, Prod.mk.injEq] at hok
      rw [hst1] at hle
      have hle2 : st.nextId + 1 ≤ st2.nextId := hle
      have h3 : st2.nextId = i2 := hok.1
      omega

/-- Witness for C4: creating `[9, 9]` on the demo store assigns the
fresh id 4 and a count by id 4 afterwards is 1. -/
theorem create_assigns_fresh_id_witness :
    Store.WF stDemo ∧ 2 ≤ ([9, 9] : List Nat).length ∧
    count (create stDemo [9, 9]).1 (some [stDemo.nextId, 0, 0]) = 1 :=
  ⟨by decide, by decide,
    (create_assigns_fresh_id stDemo [9, 9] (by decide) (by decide)).2.2.2.2.2.1⟩

/-- Claim C5: delete on a restriction matching zero links fails with
the not-found error ("No links found matching restriction") leaving the
links unchanged; on success it returns the deleted link's id and a
subsequent count with the same restriction is 0. -/
theorem delete_semantics (st : Store) (r : List Nat) :
    (matchingLinks st (some r) = [] →
      (delete st (some r)).1.links = st.links ∧
      (delete st (some r)).2 =
        Except.error (LinksError.notFoundError "No links found matching restriction")) ∧
    (∀ (l : Link) (rest : List Link), matchingLinks st (some r) = l :: rest →
      (delete st (some r)).2 = Except.ok (l.id, ⟨some l, none⟩) ∧
      count (delete st (some r)).1 (some r) = 0) := by
  constructor
  · intro h
    have h' : st.links.filter (matchesRestriction r) = [] := by
      simpa [matchingLinks] using h
    exact ⟨by simp [delete, h'], by simp [delete, h']⟩
  · intro l rest h
    have h' : st.links.filter (matchesRestriction r) = l :: rest := by
      simpa [matchingLinks] using h
    refine ⟨by simp [delete, h'], ?_⟩
    have hsl : (delete st (some r)).1.links =
        st.links.filter (fun x => !matchesRestriction r x) := by
      simp [delete, h']
    rw [count, matchingLinks, hsl, List.filter_filter]
    simp

/-- Witness for C5: deleting the unique link with id 2 from the demo
store returns id 2 and a subsequent count with the same restriction
is 0. -/
theorem delete_semantics_witness :
    matchingLinks stDemo (some [2, 0, 0]) = [⟨2, 3, 4⟩] ∧
    ((delete stDemo (some [2, 0, 0])).2 = Except.ok (2, ⟨some ⟨2, 3, 4⟩, none⟩) ∧
      count (delete stDemo (some [2, 0, 0])).1 (some [2, 0, 0]) = 0) :=
  ⟨by decide, (delete_semantics stDemo [2, 0, 0]).2 ⟨2, 3, 4⟩ [] (by decide)⟩

/-- Claim C7: every change record delivered on success has `before`
null and `after` populated for create, both populated for update, and
`before` populated with `after` null for delete. -/
theorem change_record_shape (st : Store) (sub : List Nat)
    (r : Option (List Nat)) (i : Nat) (c : ChangeRecord) :
    ((create st sub).2 = Except.ok (i, c) →
      c.before = none ∧ c.after.isSome = true) ∧
    ((update st r sub).2 = Except.ok (i, c) →
      c.before.isSome = true ∧ c.after.isSome = true) ∧
    ((delete st r).2 = Except.ok (i, c) →
      c.before.isSome = true ∧ c.after = none) := by
  refine ⟨?_, ?_, ?_⟩
  · intro h
    by_cases hl : sub.length < 2
    · simp [create, hl] at h
    · simp only [create, hl, if_false, Except.ok.injEq, Prod.mk.injEq] at h
      rw [← h.2]
      exact ⟨rfl, rfl⟩
  · intro h
    cases r with
    | none => simp [update] at h
    | some rr =>
      cases hf : st.links.filter (matchesRestriction rr) with
      | nil => simp [update, hf] at h
      | cons l tl =>
        simp only [update, hf, Except.ok.injEq, Prod.mk.injEq] at h
        rw [← h.2]
        exact ⟨rfl, rfl⟩
  · intro h
    cases r with
    | none => simp [delete] at h
    | some rr =>
      cases hf : st.links.filter (matchesRestriction rr) with
      | nil => simp [delete, hf] at h
      | cons l tl =>
        simp only [delete, hf, Except.ok.injEq, Prod.mk.injEq] at h
        rw [← h.2]
        exact ⟨rfl, rfl⟩

/-- Witness for C7: the change record of a create on the empty store
has a null `before` and a populated `after`. -/
theorem change_record_shape_witness :
    (⟨none, some ⟨1, 1, 2⟩⟩ : ChangeRecord).before = none ∧
    (⟨none, some ⟨1, 1, 2⟩⟩ : ChangeRecord).after.isSome = true :=
  (change_record_shape emptyStore [1, 2] none 1 ⟨none, some ⟨1, 1, 2⟩⟩).1 rfl

/-- Flattening a forest and rebuilding it is the identity. -/
theorem forestOfList_toList : ∀ F : MenuForest, forestOfList (forestToList F) = F := by
  refine fun F => @MenuForest.rec (fun _ => True)
    (fun F => forestOfList (forestToList F) = F) ?_ ?_ ?_ F
  · intro lb ic tg kids _
    trivial
  · rfl
  · intro it F _ ih
    simp [forestToList, forestOfList, ih]

/-- Encoding only moves the fresh-id counter up (an item consumes at
least one id). -/
theorem encode_mono :
    (∀ it : MenuItem, ∀ p fresh : Nat, fresh + 1 ≤ (encodeItem it p fresh).2) ∧
    (∀ F : MenuForest, ∀ p fresh : Nat, fresh ≤ (encodeForest F p fresh).2) := by
  have hmk : ∀ (lb ic tg : String) (kids : MenuForest),
      (∀ p fresh : Nat, fresh ≤ (encodeForest kids p fresh).2) →
      ∀ p fresh : Nat, fresh + 1 ≤ (encodeItem (MenuItem.mk lb ic tg kids) p fresh).2 := by
    intro lb ic tg kids ih p fresh
    simpa [encodeItem] using ih fresh (fresh + 1)
  have hnil : ∀ p fresh : Nat, fresh ≤ (encodeForest MenuForest.nil p fresh).2 := by
    intro p fresh
    simp [encodeForest]
  have hcons : ∀ (it : MenuItem) (F : MenuForest),
      (∀ p fresh : Nat, fresh + 1 ≤ (encodeItem it p fresh).2) →
      (∀ p fresh : Nat, fresh ≤ (encodeForest F p fresh).2) →
      ∀ p fresh : Nat, fresh ≤ (encodeForest (MenuForest.cons it F) p fresh).2 := by
    intro it F ihI ihF p fresh
    have h1 := ihI p fresh
    have h2 := ihF p (encodeItem it p fresh).2
    simp only [encodeForest]
    omega
  exact ⟨fun it => @MenuItem.rec
      (fun it => ∀ p fresh : Nat, fresh + 1 ≤ (encodeItem it p fresh).2)
      (fun F => ∀ p fresh : Nat, fresh ≤ (encodeForest F p fresh).2)
      hmk hnil hcons it,
    fun F => @MenuForest.rec
      (fun it => ∀ p fresh : Nat, fresh + 1 ≤ (encodeItem it p fresh).2)
      (fun F => ∀ p fresh : Nat, fresh ≤ (encodeForest F p fresh).2)
      hmk hnil hcons F⟩

/-- Every record produced by encoding under parent `p` from fresh id
`fresh` has parent `p` or a parent inside the block of newly assigned
ids. -/
theorem encode_parents :
    (∀ it : MenuItem, ∀ (p fresh : Nat) (nd : MenuNode),
      nd ∈ (encodeItem it p fresh).1 →
      nd.parent = p ∨ (fresh ≤ nd.parent ∧ nd.parent < (encodeItem it p fresh).2)) ∧
    (∀ F : MenuForest, ∀ (p fresh : Nat) (nd : MenuNode),
      nd ∈ (encodeForest F p fresh).1 →
      nd.parent = p ∨ (fresh ≤ nd.parent ∧ nd.parent < (encodeForest F p fresh).2)) := by
  have hmk : ∀ (lb ic tg : String) (kids : MenuForest),
      (∀ (p fresh : Nat) (nd : MenuNode), nd ∈ (encodeForest kids p fresh).1 →
        nd.parent = p ∨ (fresh ≤ nd.parent ∧ nd.parent < (encodeForest kids p fresh).2)) →
      ∀ (p fresh : Nat) (nd : MenuNode),
        nd ∈ (encodeItem (MenuItem.mk lb ic tg kids) p fresh).1 →
        nd.parent = p ∨
          (fresh ≤ nd.parent ∧ nd.parent < (encodeItem (MenuItem.mk lb ic tg kids) p fresh).2) := by
    intro lb ic tg kids ih p fresh nd hnd
    have hek : fresh + 1 ≤ (encodeForest kids fresh (fresh + 1)).2 :=
      encode_mono.2 kids fresh (fresh + 1)
    simp only [encodeItem, List.mem_cons] at hnd
    rcases hnd with h | h
    · left
      rw [h]
    · rcases ih fresh (fresh + 1) nd h with h2 | h2
      · right
        refine ⟨le_of_eq h2.symm, ?_⟩
        simp only [encodeItem]
        omega
      · right
        refine ⟨by omega, ?_⟩
        simp only [encodeItem]
        omega
  have hnil : ∀ (p fresh : Nat) (nd : MenuNode),
      nd ∈ (encodeForest MenuForest.nil p fresh).1 →
      nd.parent = p ∨
        (fresh ≤ nd.parent ∧ nd.parent < (encodeForest MenuForest.nil p fresh).2) := by
    intro p fresh nd hnd
    simp [encodeForest] at hnd
  have hcons : ∀ (it : MenuItem) (F : MenuForest),
      (∀ (p fresh : Nat) (nd : MenuNode), nd ∈ (encodeItem it p fresh).1 →
        nd.parent = p ∨ (fresh ≤ nd.parent ∧ nd.parent < (encodeItem it p fresh).2)) →
      (∀ (p fresh : Nat) (nd : MenuNode), nd ∈ (encodeForest F p fresh).1 →
        nd.parent = p ∨ (fresh ≤ nd.parent ∧ nd.parent < (encodeForest F p fresh).2)) →
      ∀ (p fresh : Nat) (nd : MenuNode),
        nd ∈ (encodeForest (MenuForest.cons it F) p fresh).1 →
        nd.parent = p ∨
          (fresh ≤ nd.parent ∧ nd.parent < (encodeForest (MenuForest.cons it F) p fresh).2) := by
    intro it F ihI ihF p fresh nd hnd
    have hm1 : fresh + 1 ≤ (encodeItem it p fresh).2 := encode_mono.1 it p fresh
    have hm2 : (encodeItem it p fresh).2 ≤ (encodeForest F p (encodeItem it p fresh).2).2 :=
      encode_mono.2 F p (encodeItem it p fresh).2
    simp only [encodeForest, List.mem_append] at hnd
    rcases hnd with h | h
    · rcases ihI p fresh nd h with h2 | h2
      · exact Or.inl h2
      · right
        refine ⟨h2.1, ?_⟩
        simp only [encodeForest]
        omega
    · rcases ihF p (encodeItem it p fresh).2 nd h with h2 | h2
      · exact Or.inl h2
      · right
        refine ⟨by omega, ?_⟩
        simp only [encodeForest]
        omega
  exact ⟨fun it => @MenuItem.rec
      (fun it => ∀ (p fresh : Nat) (nd : MenuNode), nd ∈ (encodeItem it p fresh).1 →
        nd.parent = p ∨ (fresh ≤ nd.parent ∧ nd.parent < (encodeItem it p fresh).2))
      (fun F => ∀ (p fresh : Nat) (nd : MenuNode), nd ∈ (encodeForest F p fresh).1 →
        nd.parent = p ∨ (fresh ≤ nd.parent ∧ nd.parent < (encodeForest F p fresh).2))
      hmk hnil hcons it,
    fun F => @MenuForest.rec
      (fun it => ∀ (p fresh : Nat) (nd : MenuNode), nd ∈ (encodeItem it p fresh).1 →
        nd.parent = p ∨ (fresh ≤ nd.parent ∧ nd.parent < (encodeItem it p fresh).2))
      (fun F => ∀ (p fresh : Nat) (nd : MenuNode), nd ∈ (encodeForest F p fresh).1 →
        nd.parent = p ∨ (fresh ≤ nd.parent ∧ nd.parent < (encodeForest F p fresh).2))
      hmk hnil hcons F⟩

/-- Nesting depth never exceeds the number of encoded records. -/
theorem encode_depth_length :
    (∀ it : MenuItem, ∀ p fresh : Nat, depthItem it ≤ (encodeItem it p fresh).1.length) ∧
    (∀ F : MenuForest, ∀ p fresh : Nat, depthForest F ≤ (encodeForest F p fresh).1.length) := by
  have hmk : ∀ (lb ic tg : String) (kids : MenuForest),
      (∀ p fresh : Nat, depthForest kids ≤ (encodeForest kids p fresh).1.length) →
      ∀ p fresh : Nat,
        depthItem (MenuItem.mk lb ic tg kids) ≤
          (encodeItem (MenuItem.mk lb ic tg kids) p fresh).1.length := by
    intro lb ic tg kids ih p fresh
    have h := ih fresh (fresh + 1)
    simp only [depthItem, encodeItem, List.length_cons]
    omega
  have hnil : ∀ p fresh : Nat,
      depthForest MenuForest.nil ≤ (encodeForest MenuForest.nil p fresh).1.length := by
    intro p fresh
    simp [depthForest, encodeForest]
  have hcons : ∀ (it : MenuItem) (F : MenuForest),
      (∀ p fresh : Nat, depthItem it ≤ (encodeItem it p fresh).1.length) →
      (∀ p fresh : Nat, depthForest F ≤ (encodeForest F p fresh).1.length) →
      ∀ p fresh : Nat,
        depthForest (MenuForest.cons it F) ≤
          (encodeForest (MenuForest.cons it F) p fresh).1.length := by
    intro it F ihI ihF p fresh
    have h1 := ihI p fresh
    have h2 := ihF p (encodeItem it p fresh).2
    simp only [depthForest, encodeForest, List.length_append]
    omega
  exact ⟨fun it => @MenuItem.rec
      (fun it => ∀ p fresh : Nat, depthItem it ≤ (encodeItem it p fresh).1.length)
      (fun F => ∀ p fresh : Nat, depthForest F ≤ (encodeForest F p fresh).1.length)
      hmk hnil hcons it,
    fun F => @MenuForest.rec
      (fun it => ∀ p fresh : Nat, depthItem it ≤ (encodeItem it p fresh).1.length)
      (fun F => ∀ p fresh : Nat, depthForest F ≤ (encodeForest F p fresh).1.length)
      hmk hnil hcons F⟩

/-- Decoding an encoded item (or forest) out of the middle of a record
list recovers it exactly, provided the surrounding records do not point
into the freshly assigned id block and the fuel covers the nesting
depth. -/
theorem decode_encode :
    (∀ it : MenuItem, ∀ (p fresh fu : Nat) (pre post : List MenuNode),
      p < fresh → depthItem it ≤ fu →
      (∀ nd ∈ pre ++ post, nd.parent < fresh ∨ (encodeItem it p fresh).2 ≤ nd.parent) →
      ((encodeItem it p fresh).1.filter (fun nd => nd.parent == p)).map
        (decodeNode (pre ++ (encodeItem it p fresh).1 ++ post) fu) = [it]) ∧
    (∀ F : MenuForest, ∀ (p fresh fu : Nat) (pre post : List MenuNode),
      p < fresh → depthForest F ≤ fu →
      (∀ nd ∈ pre ++ post, nd.parent < fresh ∨ (encodeForest F p fresh).2 ≤ nd.parent) →
      ((encodeForest F p fresh).1.filter (fun nd => nd.parent == p)).map
        (decodeNode (pre ++ (encodeForest F p fresh).1 ++ post) fu) = forestToList F) := by
  have hmk : ∀ (lb ic tg : String) (kids : MenuForest),
      (∀ (p fresh fu : Nat) (pre post : List MenuNode),
        p < fresh → depthForest kids ≤ fu →
        (∀ nd ∈ pre ++ post, nd.parent < fresh ∨ (encodeForest kids p fresh).2 ≤ nd.parent) →
        ((encodeForest kids p fresh).1.filter (fun nd => nd.parent == p)).map
          (decodeNode (pre ++ (encodeForest kids p fresh).1 ++ post) fu) = forestToList kids) →
      ∀ (p fresh fu : Nat) (pre post : List MenuNode),
        p < fresh → depthItem (MenuItem.mk lb ic tg kids) ≤ fu →
        (∀ nd ∈ pre ++ post, nd.parent < fresh ∨
          (encodeItem (MenuItem.mk lb ic tg kids) p fresh).2 ≤ nd.parent) →
        ((encodeItem (MenuItem.mk lb ic tg kids) p fresh).1.filter
          (fun nd => nd.parent == p)).map
          (decodeNode (pre ++ (encodeItem (MenuItem.mk lb ic tg kids) p fresh).1 ++ post) fu)
          = [MenuItem.mk lb ic tg kids] := by
    intro lb ic tg kids ih p fresh fu pre post hp hd hsides
    simp only [depthItem] at hd
    cases fu with
    | zero => omega
    | succ fu' =>
      have hek2 : fresh + 1 ≤ (encodeForest kids fresh (fresh + 1)).2 :=
        encode_mono.2 kids fresh (fresh + 1)
      simp only [encodeItem] at hsides ⊢
      have hfil : (encodeForest kids fresh (fresh + 1)).1.filter
          (fun nd => nd.parent == p) = [] := by
        rw [List.filter_eq_nil_iff]
        intro nd hnd
        rcases encode_parents.2 kids fresh (fresh + 1) nd hnd with h | ⟨h1, h2⟩
        · simp only [beq_iff_eq]
          omega
        · simp only [beq_iff_eq]
          omega
      have hstep : List.filter (fun nd => nd.parent == p)
          ((⟨fresh, p, lb, ic, tg⟩ : MenuNode) ::
            (encodeForest kids fresh (fresh + 1)).1) =
          (⟨fresh, p, lb, ic, tg⟩ : MenuNode) :: List.filter (fun nd => nd.parent == p)
            (encodeForest kids fresh (fresh + 1)).1 := by
        simp [List.filter_cons]
      rw [hstep, hfil]
      simp only [List.map_cons, List.map_nil, decodeNode]
      have hkids : childrenMenu
          (pre ++ ((⟨fresh, p, lb, ic, tg⟩ : MenuNode) ::
            (encodeForest kids fresh (fresh + 1)).1) ++ post) (fu' + 1) fresh = kids := by
        simp only [childrenMenu]
        have hpre : pre.filter (fun nd => nd.parent == fresh) = [] := by
          rw [List.filter_eq_nil_iff]
          intro nd hnd
          rcases hsides nd (List.mem_append.mpr (Or.inl hnd)) with h | h
          · simp only [beq_iff_eq]
            omega
          · simp only [beq_iff_eq]
            omega
        have hpost : post.filter (fun nd => nd.parent == fresh) = [] := by
          rw [List.filter_eq_nil_iff]
          intro nd hnd
          rcases hsides nd (List.mem_append.mpr (Or.inr hnd)) with h | h
          · simp only [beq_iff_eq]
            omega
          · simp only [beq_iff_eq]
            omega
        have hstep2 : List.filter (fun nd => nd.parent == fresh)
            ((⟨fresh, p, lb, ic, tg⟩ : MenuNode) ::
              (encodeForest kids fresh (fresh + 1)).1) =
            List.filter (fun nd => nd.parent == fresh)
              (encodeForest kids fresh (fresh + 1)).1 := by
          have hpf : (p == fresh) = false := by
            simp only [beq_eq_false_iff_ne, ne_eq]
            omega
          simp [List.filter_cons, hpf]
        have hsidesK : ∀ nd ∈ (pre ++ [(⟨fresh, p, lb, ic, tg⟩ : MenuNode)]) ++ post,
            nd.parent < fresh + 1 ∨ (encodeForest kids fresh (fresh + 1)).2 ≤ nd.parent := by
          intro nd hnd
          rcases List.mem_append.mp hnd with h | h
          · rcases List.mem_append.mp h with h2 | h2
            · rcases hsides nd (List.mem_append.mpr (Or.inl h2)) with h3 | h3
              · exact Or.inl (by omega)
              · exact Or.inr h3
            · rcases List.mem_singleton.mp h2 with rfl
              exact Or.inl (Nat.lt_succ_of_lt hp)
          · rcases hsides nd (List.mem_append.mpr (Or.inr h)) with h3 | h3
            · exact Or.inl (by omega)
            · exact Or.inr h3
        have hk := ih fresh (fresh + 1) fu' (pre ++ [(⟨fresh, p, lb, ic, tg⟩ : MenuNode)])
          post (Nat.lt_succ_self fresh) (by omega) hsidesK
        have hassoc : pre ++ [(⟨fresh, p, lb, ic, tg⟩ : MenuNode)] ++
            (encodeForest kids fresh (fresh + 1)).1 ++ post =
            pre ++ ((⟨fresh, p, lb, ic, tg⟩ : MenuNode) ::
              (encodeForest kids fresh (fresh + 1)).1) ++ post := by
          simp
        rw [hassoc] at hk
        rw [List.filter_append, List.filter_append, hpre, hpost, hstep2]
        rw [show (fun nd => MenuItem.mk nd.label nd.icon nd.tgt
          (childrenMenu (pre ++ ((⟨fresh, p, lb, ic, tg⟩ : MenuNode) ::
            (encodeForest kids fresh (fresh + 1)).1) ++ post) fu' nd.id)) =
          decodeNode (pre ++ ((⟨fresh, p, lb, ic, tg⟩ : MenuNode) ::
            (encodeForest kids fresh (fresh + 1)).1) ++ post) fu' from rfl]
        rw [List.nil_append, List.append_nil, hk, forestOfList_toList]
      rw [hkids]
  have hnil : ∀ (p fresh fu : Nat) (pre post : List MenuNode),
      p < fresh → depthForest MenuForest.nil ≤ fu →
      (∀ nd ∈ pre ++ post, nd.parent < fresh ∨
        (encodeForest MenuForest.nil p fresh).2 ≤ nd.parent) →
      ((encodeForest MenuForest.nil p fresh).1.filter (fun nd => nd.parent == p)).map
        (decodeNode (pre ++ (encodeForest MenuForest.nil p fresh).1 ++ post) fu)
        = forestToList MenuForest.nil := by
    intro p fresh fu pre post _ _ _
    simp [encodeForest, forestToList]
  have hcons : ∀ (it : MenuItem) (F : MenuForest),
      (∀ (p fresh fu : Nat) (pre post : List MenuNode),
        p < fresh → depthItem it ≤ fu →
        (∀ nd ∈ pre ++ post, nd.parent < fresh ∨ (encodeItem it p fresh).2 ≤ nd.parent) →
        ((encodeItem it p fresh).1.filter (fun nd => nd.parent == p)).map
          (decodeNode (pre ++ (encodeItem it p fresh).1 ++ post) fu) = [it]) →
      (∀ (p fresh fu : Nat) (pre post : List MenuNode),
        p < fresh → depthForest F ≤ fu →
        (∀ nd ∈ pre ++ post, nd.parent < fresh ∨ (encodeForest F p fresh).2 ≤ nd.parent) →
        ((encodeForest F p fresh).1.filter (fun nd => nd.parent == p)).map
          (decodeNode (pre ++ (encodeForest F p fresh).1 ++ post) fu) = forestToList F) →
      ∀ (p fresh fu : Nat) (pre post : List MenuNode),
        p < fresh → depthForest (MenuForest.cons it F) ≤ fu →
        (∀ nd ∈ pre ++ post, nd.parent < fresh ∨
          (encodeForest (MenuForest.cons it F) p fresh).2 ≤ nd.parent) →
        ((encodeForest (MenuForest.cons it F) p fresh).1.filter
          (fun nd => nd.parent == p)).map
          (decodeNode (pre ++ (encodeForest (MenuForest.cons it F) p fresh).1 ++ post) fu)
          = forestToList (MenuForest.cons it F) := by
    intro it F ihI ihF p fresh fu pre post hp hd hsides
    simp only [depthForest] at hd
    have hdI : depthItem it ≤ fu := le_trans (le_max_left _ _) hd
    have hdF : depthForest F ≤ fu := le_trans (le_max_right _ _) hd
    have hm1 : fresh + 1 ≤ (encodeItem it p fresh).2 := encode_mono.1 it p fresh
    have hm2 : (encodeItem it p fresh).2 ≤
        (encodeForest F p (encodeItem it p fresh).2).2 :=
      encode_mono.2 F p (encodeItem it p fresh).2
    simp only [encodeForest] at hsides ⊢
    have hsA : ∀ nd ∈ pre ++ ((encodeForest F p (encodeItem it p fresh).2).1 ++ post),
        nd.parent < fresh ∨ (encodeItem it p fresh).2 ≤ nd.parent := by
      intro nd hnd
      rcases List.mem_append.mp hnd with h | h
      · rcases hsides nd (List.mem_append.mpr (Or.inl h)) with h2 | h2
        · exact Or.inl h2
        · exact Or.inr (le_trans hm2 h2)
      · rcases List.mem_append.mp h with h3 | h3
        · rcases encode_parents.2 F p (encodeItem it p fresh).2 nd h3 with h4 | h4
          · exact Or.inl (by omega)
          · exact Or.inr h4.1
        · rcases hsides nd (List.mem_append.mpr (Or.inr h3)) with h2 | h2
          · exact Or.inl h2
          · exact Or.inr (le_trans hm2 h2)
    have hA := ihI p fresh fu pre ((encodeForest F p (encodeItem it p fresh).2).1 ++ post)
      hp hdI hsA
    have hassocA : pre ++ (encodeItem it p fresh).1 ++
        ((encodeForest F p (encodeItem it p fresh).2).1 ++ post) =
        pre ++ ((encodeItem it p fresh).1 ++
          (encodeForest F p (encodeItem it p fresh).2).1) ++ post := by
      simp
    rw [hassocA] at hA
    have hpB : p < (encodeItem it p fresh).2 := by omega
    have hsB : ∀ nd ∈ (pre ++ (encodeItem it p fresh).1) ++ post,
        nd.parent < (encodeItem it p fresh).2 ∨
          (encodeForest F p (encodeItem it p fresh).2).2 ≤ nd.parent := by
      intro nd hnd
      rcases List.mem_append.mp hnd with h | h
      · rcases List.mem_append.mp h with h3 | h3
        · rcases hsides nd (List.mem_append.mpr (Or.inl h3)) with h2 | h2
          · exact Or.inl (by omega)
          · exact Or.inr h2
        · rcases encode_parents.1 it p fresh nd h3 with h4 | h4
          · exact Or.inl (by omega)
          · exact Or.inl h4.2
      · rcases hsides nd (List.mem_append.mpr (Or.inr h)) with h2 | h2
        · exact Or.inl (by omega)
        · exact Or.inr h2
    have hB := ihF p (encodeItem it p fresh).2 fu (pre ++ (encodeItem it p fresh).1)
      post hpB hdF hsB
    have hassocB : pre ++ (encodeItem it p fresh).1 ++
        (encodeForest F p (encodeItem it p fresh).2).1 ++ post =
        pre ++ ((encodeItem it p fresh).1 ++
          (encodeForest F p (encodeItem it p fresh).2).1) ++ post := by
      simp
    rw [hassocB] at hB
    rw [List.filter_append, List.map_append, hA, hB]
    simp [forestToList]
  exact ⟨fun it => @MenuItem.rec
      (fun it => ∀ (p fresh fu : Nat) (pre post : List MenuNode),
        p < fresh → depthItem it ≤ fu →
        (∀ nd ∈ pre ++ post, nd.parent < fresh ∨ (encodeItem it p fresh).2 ≤ nd.parent) →
        ((encodeItem it p fresh).1.filter (fun nd => nd.parent == p)).map
          (decodeNode (pre ++ (encodeItem it p fresh).1 ++ post) fu) = [it])
      (fun F => ∀ (p fresh fu : Nat) (pre post : List MenuNode),
        p < fresh → depthForest F ≤ fu →
        (∀ nd ∈ pre ++ post, nd.parent < fresh ∨ (encodeForest F p fresh).2 ≤ nd.parent) →
        ((encodeForest F p fresh).1.filter (fun nd => nd.parent == p)).map
          (decodeNode (pre ++ (encodeForest F p fresh).1 ++ post) fu) = forestToList F)
      hmk hnil hcons it,
    fun F => @MenuForest.rec
      (fun it => ∀ (p fresh fu : Nat) (pre post : List MenuNode),
        p < fresh → depthItem it ≤ fu →
        (∀ nd ∈ pre ++ post, nd.parent < fresh ∨ (encodeItem it p fresh).2 ≤ nd.parent) →
        ((encodeItem it p fresh).1.filter (fun nd => nd.parent == p)).map
          (decodeNode (pre ++ (encodeItem it p fresh).1 ++ post) fu) = [it])
      (fun F => ∀ (p fresh fu : Nat) (pre post : List MenuNode),
        p < fresh → depthForest F ≤ fu →
        (∀ nd ∈ pre ++ post, nd.parent < fresh ∨ (encodeForest F p fresh).2 ≤ nd.parent) →
        ((encodeForest F p fresh).1.filter (fun nd => nd.parent == p)).map
          (decodeNode (pre ++ (encodeForest F p fresh).1 ++ post) fu) = forestToList F)
      hmk hnil hcons F⟩

/-- Claim C9: storing any menu tree under parent 0 on a fresh service
and reading it back reproduces the original tree exactly — labels,
icons, navigation targets, nesting and child order. -/
theorem menu_roundtrip (F : MenuForest) :
    getMenuStructure (storeMenuStructure emptyMenuDB F 0).1 0 = F := by
  have hdepth : depthForest F ≤ (encodeForest F 0 1).1.length :=
    encode_depth_length.2 F 0 1
  have h := decode_encode.2 F 0 1 ((encodeForest F 0 1).1.length) [] []
    (by omega) hdepth (by intro nd hnd; simp at hnd)
  have hass : ([] : List MenuNode) ++ (encodeForest F 0 1).1 ++ [] =
      (encodeForest F 0 1).1 := by
    simp
  rw [hass] at h
  simp only [getMenuStructure, storeMenuStructure, emptyMenuDB, List.nil_append]
  simp only [childrenMenu]
  rw [show (fun nd => MenuItem.mk nd.label nd.icon nd.tgt
    (childrenMenu (encodeForest F 0 1).1 (encodeForest F 0 1).1.length nd.id)) =
    decodeNode (encodeForest F 0 1).1 (encodeForest F 0 1).1.length from rfl]
  rw [h, forestOfList_toList]
